import Mathlib

/-!
Verification development for the `sherlock` object-detection pipeline
(`object2.py`): a capture loop allocates frames in a process-shared table
(`images`, the FrameStore) keyed by wall-clock timestamps (Tokens), feeds
the tokens through an mpipe pipeline
(filter_detector → postproc → filter_viewer → staller), while a second
one-stage pipeline (the Deallocator) drains the main pipeline's results
and deletes the corresponding FrameStore entries.

Data model of the embedding:
* `Token`  — a wall-clock timestamp, embedded as a rational number of
  seconds (`datetime.datetime` values are totally ordered and subtracted
  to `timedelta`s; ℚ captures both).
* `Frame`  — the shared-memory image buffer, abstract (`ℕ`).
* `Store`  — the `images = manager.dict()` table: an association list with
  Python-dict semantics (`images[k] = v` inserts or silently replaces,
  `images[k]` raises `KeyError` when absent, `del images[k]` raises
  `KeyError` when absent).

The mpipe engine itself (OrderedWorker scheduling, FilterStage fan-out /
fan-in, Pipeline shutdown) is an imported library that is not part of the
repository sources; its behaviour is modelled from the spec where a claim
depends on it, in definitions whose doc comments say so.
-/

namespace Sherlock

/-- Tokens are wall-clock capture timestamps (`datetime.datetime.now()`),
embedded as rational seconds. -/
abbrev Token := ℚ

/-- Frames (shared-memory image buffers) are abstract. -/
abbrev Frame := ℕ

/-- The `images` table: `multiprocessing.Manager().dict()` keyed by Token. -/
abbrev Store := List (Token × Frame)

/-- `images[t]`: first binding of `t`, `none` models a raised `KeyError`. -/
def dictGet (s : Store) (t : Token) : Option Frame :=
  match s with
  | [] => none
  | (k, v) :: rest => if k = t then some v else dictGet rest t

/-- `t in images`. -/
def dictMem (s : Store) (t : Token) : Bool :=
  (dictGet s t).isSome

/-- `images[t] = v`: Python dict assignment — replaces the existing binding
when `t` is present, otherwise appends a new binding. -/
def dictAssign (s : Store) (t : Token) (v : Frame) : Store :=
  match s with
  | [] => [(t, v)]
  | (k, w) :: rest => if k = t then (t, v) :: rest else (k, w) :: dictAssign rest t v

/-- `del images[t]`: removes the binding of `t`, `Except.error` models the
`KeyError` raised when `t` is absent. -/
def dictDelete (s : Store) (t : Token) : Except Unit Store :=
  match s with
  | [] => .error ()
  | (k, v) :: rest =>
    if k = t then .ok rest else (dictDelete rest t).map (fun r => (k, v) :: r)

/-- The keys of the table, in insertion order. -/
def dictKeys (s : Store) : List Token :=
  s.map Prod.fst

/-! ### Stage task functions, embedded from `object2.py`

Each `doTask` body is translated directly.  The opaque collaborators
(cv2 classifier, cv2 drawing/OSD, cv2 display) are parameters:
classification is a possibly-failing function `Frame → Except Unit (List Rect4)`
(`detectMultiScale` with its scale/size hints folded into the opaque
capability, as the spec's external-interface section prescribes), drawing
and OSD annotation is an in-place transformation `Frame → List CRect → Frame`,
display is a possibly-failing `Frame → Except Unit Unit`. -/

/-- A detected rectangle `(a, b, c, d)` as returned by the classifier. -/
abbrev Rect4 := ℤ × ℤ × ℤ × ℤ

/-- A rectangle paired with the detector's colour: the source appends
`(a, b, c, d, self._color)`. -/
abbrev CRect := Rect4 × ℕ

/-- `Detector.doTask(tstamp)`: look the frame up in `images`, run the
classifier, tag each rectangle with the detector's colour.  The whole body
is wrapped in `try/except`, so a `KeyError` on lookup or a classifier
failure is caught and the rectangles accumulated so far — necessarily
none, both failure points precede any append — are returned. -/
def detectorDoTask (store : Store) (classify : Frame → Except Unit (List Rect4))
    (color : ℕ) (tstamp : Token) : List CRect :=
  match dictGet store tstamp with
  | none => []
  | some image =>
    match classify image with
    | .error _ => []
    | .ok rects => rects.map (fun r => (r, color))

/-- `[item for sublist in rects for item in sublist]` in
`Postprocessor.doTask`. -/
def flattenRects (rects : List (List CRect)) : List CRect :=
  rects.flatMap (fun l => l)

/-- `Postprocessor.doTask((tstamp, rects))`: flatten the per-branch
rectangle lists, draw them and the OSD text onto `images[tstamp]` in place,
return `tstamp`.  The body has no `try/except`; `images[tstamp]` is read
unconditionally (for `np.shape` even when there are no rectangles), so a
lookup miss raises `KeyError`, modelled by `Except.error`.  The in-place
mutation is returned as the updated store. -/
def postprocDoTask (annotate : Frame → List CRect → Frame) (store : Store)
    (task : Token × List (List CRect)) : Except Unit (Store × Token) :=
  match dictGet store task.1 with
  | none => .error ()
  | some image =>
    .ok (dictAssign store task.1 (annotate image (flattenRects task.2)), task.1)

/-- `Viewer.doTask(tstamp)`: look the frame up and display it, everything
wrapped in `try/except`; the token is returned on every path. -/
def viewerDoTask (display : Frame → Except Unit Unit) (store : Store)
    (tstamp : Token) : Token :=
  match dictGet store tstamp with
  | none => tstamp
  | some image =>
    match display image with
    | .error _ => tstamp
    | .ok _ => tstamp

/-- `Staller.doTask((tstamp, results))` timing: the sleep duration
`datetime.timedelta(seconds=2) - (now - tstamp)` when that is positive,
otherwise no sleep. -/
def stallerWait (now tstamp : ℚ) : ℚ :=
  let delta := now - tstamp
  let duration := (2 : ℚ) - delta
  if 0 < duration then duration else 0

/-- The wall-clock time at which the Staller returns, entered at `now`. -/
def stallerRelease (now tstamp : ℚ) : ℚ :=
  now + stallerWait now tstamp

/-- `Staller.doTask((tstamp, results))` value: the returned value is
`tstamp`, the first component of the received task. -/
def stallerDoTask (task : Token × List Token) : Token :=
  task.1

/-! ### Ordered release discipline

Modelled from the spec: every worker class in `object2.py` subclasses
`mpipe.OrderedWorker`, whose implementation is the imported mpipe library,
not a repository source.  Per §4.2 of the spec, an Ordered stage "may
process multiple tasks concurrently, but results are buffered internally
and released to the downstream target strictly in original arrival order".
We model a run of the stage by the list `cs` of input indices in the order
the worker pool happens to complete them; `res i` is the result of task
`i`.  The state is `(done, next, out)`: the set of completed-but-unreleased
indices, the index of the next result to release, and the released output
sequence. -/

/-- Modelled from the spec: the release loop — after a completion, release
buffered results starting at `next` for as long as they are present.  The
fuel argument only bounds the iterations; `flushF_fuel_irrelevant` shows
any fuel ≥ `done.card` gives the same result. -/
def flushF {β : Type _} (res : ℕ → β) :
    ℕ → Finset ℕ → ℕ → List β → Finset ℕ × ℕ × List β
  | 0, done, next, out => (done, next, out)
  | fuel + 1, done, next, out =>
    if next ∈ done then
      flushF res fuel (done.erase next) (next + 1) (out ++ [res next])
    else (done, next, out)

/-- Modelled from the spec: one completion event — buffer the result of
task `i`, then run the release loop. -/
def ordStep {β : Type _} (res : ℕ → β) (st : Finset ℕ × ℕ × List β) (i : ℕ) :
    Finset ℕ × ℕ × List β :=
  flushF res (st.1.card + 1) (insert i st.1) st.2.1 st.2.2

/-- Modelled from the spec: a full run of an Ordered stage, processing the
completion events `cs` from the empty initial state. -/
def ordRun {β : Type _} (res : ℕ → β) (cs : List ℕ) : Finset ℕ × ℕ × List β :=
  cs.foldl (ordStep res) (∅, 0, [])

/-- Invariant of the ordered-release state relative to the set `S` of
indices completed so far: the buffer holds exactly the completed indices
not yet released, the released prefix `[0, next)` is completed, and the
output is the results of `[0, next)` in index order. -/
def OrdInv {β : Type _} (res : ℕ → β) (S : Finset ℕ)
    (done : Finset ℕ) (next : ℕ) (out : List β) : Prop :=
  (∀ j, j ∈ done ↔ j ∈ S ∧ next ≤ j) ∧
  (∀ j, j < next → j ∈ S) ∧
  out = (List.range next).map res

theorem flushF_inv {β : Type _} (res : ℕ → β) (S : Finset ℕ) :
    ∀ fuel done next out, OrdInv res S done next out → done.card ≤ fuel →
      OrdInv res S (flushF res fuel done next out).1
          (flushF res fuel done next out).2.1 (flushF res fuel done next out).2.2 ∧
        (flushF res fuel done next out).2.1 ∉ (flushF res fuel done next out).1 := by
  intro fuel
  induction fuel with
  | zero =>
    intro done next out hinv hcard
    have hdone : done = ∅ := Finset.card_eq_zero.mp (Nat.le_zero.mp hcard)
    subst hdone
    exact ⟨hinv, Finset.not_mem_empty next⟩
  | succ fuel ih =>
    intro done next out hinv hcard
    by_cases hmem : next ∈ done
    · have hstep : flushF res (fuel + 1) done next out =
          flushF res fuel (done.erase next) (next + 1) (out ++ [res next]) := by
        simp [flushF, hmem]
      rw [hstep]
      apply ih
      · refine ⟨?_, ?_, ?_⟩
        · intro j
          have h1 := hinv.1 j
          simp only [Finset.mem_erase] at *
          constructor
          · rintro ⟨hne, hj⟩
            have := h1.mp hj
            exact ⟨this.1, by omega⟩
          · rintro ⟨hjS, hle⟩
            exact ⟨by omega, h1.mpr ⟨hjS, by omega⟩⟩
        · intro j hj
          rcases Nat.lt_succ_iff_lt_or_eq.mp hj with h | h
          · exact hinv.2.1 j h
          · subst h; exact ((hinv.1 j).mp hmem).1
        · rw [List.range_succ, List.map_append, List.map_cons, List.map_nil,
            hinv.2.2]
      · have := Finset.card_erase_of_mem hmem
        omega
    · have hstep : flushF res (fuel + 1) done next out = (done, next, out) := by
        simp [flushF, hmem]
      rw [hstep]
      exact ⟨hinv, hmem⟩

theorem ordStep_inv {β : Type _} (res : ℕ → β) (S : Finset ℕ)
    (done : Finset ℕ) (next : ℕ) (out : List β) (i : ℕ)
    (hinv : OrdInv res S done next out) (_hstop : next ∉ done) (hi : i ∉ S) :
    OrdInv res (insert i S) (ordStep res (done, next, out) i).1
        (ordStep res (done, next, out) i).2.1 (ordStep res (done, next, out) i).2.2 ∧
      (ordStep res (done, next, out) i).2.1 ∉ (ordStep res (done, next, out) i).1 := by
  have hnexti : next ≤ i := by
    by_contra h
    exact hi (hinv.2.1 i (by omega))
  have hpre : OrdInv res (insert i S) (insert i done) next out := by
    refine ⟨?_, ?_, hinv.2.2⟩
    · intro j
      have h1 := hinv.1 j
      simp only [Finset.mem_insert] at *
      constructor
      · rintro (h | h)
        · exact ⟨Or.inl h, by omega⟩
        · have := h1.mp h
          exact ⟨Or.inr this.1, this.2⟩
      · rintro ⟨h | h, hle⟩
        · exact Or.inl h
        · exact Or.inr (h1.mpr ⟨h, hle⟩)
    · intro j hj
      exact Finset.mem_insert_of_mem (hinv.2.1 j hj)
  exact flushF_inv res (insert i S) (done.card + 1) (insert i done) next out hpre
    (Finset.card_insert_le i done)

theorem ordRun_inv {β : Type _} (res : ℕ → β) :
    ∀ (cs : List ℕ) (S : Finset ℕ) (st : Finset ℕ × ℕ × List β),
      cs.Nodup → (∀ i ∈ cs, i ∉ S) → OrdInv res S st.1 st.2.1 st.2.2 →
        st.2.1 ∉ st.1 →
      OrdInv res (S ∪ cs.toFinset) (cs.foldl (ordStep res) st).1
          (cs.foldl (ordStep res) st).2.1 (cs.foldl (ordStep res) st).2.2 ∧
        (cs.foldl (ordStep res) st).2.1 ∉ (cs.foldl (ordStep res) st).1 := by
  intro cs
  induction cs with
  | nil =>
    intro S st _ _ hinv hstop
    simpa using ⟨hinv, hstop⟩
  | cons c cs ih =>
    intro S st hnd hfresh hinv hstop
    have hc : c ∉ S := hfresh c (List.mem_cons_self c cs)
    have hstep := ordStep_inv res S st.1 st.2.1 st.2.2 c hinv hstop hc
    have hfresh' : ∀ i ∈ cs, i ∉ insert c S := by
      intro i hi
      simp only [Finset.mem_insert]
      rintro (h | h)
      · exact (List.nodup_cons.mp hnd).1 (h ▸ hi)
      · exact hfresh i (List.mem_cons_of_mem c hi) h
    have hres := ih (insert c S) (ordStep res st c) (List.nodup_cons.mp hnd).2
      hfresh' hstep.1 hstep.2
    have hset : insert c S ∪ cs.toFinset = S ∪ (c :: cs).toFinset := by
      ext j
      simp only [Finset.mem_union, Finset.mem_insert, List.mem_toFinset, List.mem_cons]
      tauto
    rw [hset] at hres
    simpa using hres

/-- A settled ordered-release state whose completed set is `[0, N)` has
released exactly the results of `0, …, N-1`, in index order. -/
theorem ordInv_final {β : Type _} (res : ℕ → β) (N : ℕ) (T done : Finset ℕ)
    (next : ℕ) (out : List β) (hT : ∀ j, j ∈ T ↔ j < N)
    (hinv : OrdInv res T done next out) (hstop : next ∉ done) :
    next = N ∧ out = (List.range N).map res := by
  have hnext : next = N := by
    by_contra hne
    rcases Nat.lt_or_ge next N with h1 | h1
    · exact hstop ((hinv.1 next).mpr ⟨(hT next).mpr h1, le_refl next⟩)
    · have hNlt : N < next := by omega
      exact absurd ((hT N).mp (hinv.2.1 N hNlt)) (lt_irrefl N)
  refine ⟨hnext, ?_⟩
  have hout := hinv.2.2
  rw [hnext] at hout
  exact hout

/-- The output of a full ordered run over a completion order that is a
permutation of `range N` is the results of `0, …, N-1` in index order. -/
theorem ordRun_out {β : Type _} (res : ℕ → β) (N : ℕ) (cs : List ℕ)
    (hperm : cs.Perm (List.range N)) :
    (ordRun res cs).2.2 = (List.range N).map res := by
  have hnd : cs.Nodup := hperm.nodup_iff.mpr (List.nodup_range N)
  have hinv0 : OrdInv res ∅ (∅ : Finset ℕ) 0 ([] : List β) := by
    refine ⟨by simp, ?_, by simp⟩
    intro j hj
    exact absurd hj (Nat.not_lt_zero j)
  have h := ordRun_inv res cs ∅ (∅, 0, []) hnd (by simp) hinv0
    (Finset.not_mem_empty 0)
  have hT : ∀ j, j ∈ (∅ ∪ cs.toFinset : Finset ℕ) ↔ j < N := by
    intro j
    simp only [Finset.mem_union, Finset.not_mem_empty, false_or, List.mem_toFinset]
    rw [hperm.mem_iff, List.mem_range]
  exact (ordInv_final res N _ _ _ _ hT h.1 h.2).2

/-- Modelled from the spec: an Ordered stage run — task function `f`,
submitted task list `inputs`, completion order `cs` (a permutation of the
input indices); the value is the emitted output sequence. -/
def orderedStageRun {α β : Type _} [Inhabited α] (f : α → β)
    (inputs : List α) (cs : List ℕ) : List β :=
  (ordRun (fun i => f (inputs.getD i default)) cs).2.2

theorem map_range_getD {α : Type _} [Inhabited α] (l : List α) :
    (List.range l.length).map (fun i => l.getD i default) = l := by
  induction l with
  | nil => simp
  | cons a tl ih =>
    rw [List.length_cons, List.range_succ_eq_map, List.map_cons, List.map_map]
    simp only [List.getD_cons_zero, Function.comp_def, List.getD_cons_succ]
    rw [ih]

/-! ### FilterStage fan-out / fan-in

Modelled from the spec (§4.3): `mpipe.FilterStage` — used by `object2.py`
as `filter_detector` (the detector branches) and `filter_viewer` (a single
Viewer branch) — routes every incoming Task to all `K` branch Stages,
and "once every branch has produced a partial result for a given Task,
FilterStage merges them into one combined result and forwards it
downstream … by never releasing a merged result until all of that Task's
branch results exist, then queuing the merged result into an ordering
stage as in §4.2".  A run is modelled by the delivery schedule `sched`:
the list of (task index, branch index) pairs in the order the branch
results arrive.  `res i` is the merged result of task `i`. -/

/-- Modelled from the spec: one branch delivery — record branch `p.2` as
delivered for task `p.1`; when that completes the task's set of branch
results, feed the merged task into the ordered release of §4.2. -/
def filtStep {β : Type _} (K : ℕ) (res : ℕ → β)
    (st : (ℕ → Finset ℕ) × Finset ℕ × ℕ × List β) (p : ℕ × ℕ) :
    (ℕ → Finset ℕ) × Finset ℕ × ℕ × List β :=
  if (insert p.2 (st.1 p.1)).card = K then
    (Function.update st.1 p.1 (insert p.2 (st.1 p.1)), ordStep res st.2 p.1)
  else
    (Function.update st.1 p.1 (insert p.2 (st.1 p.1)), st.2)

/-- Modelled from the spec: a full FilterStage run, processing the branch
delivery schedule `sched` from the empty initial state. -/
def filtRun {β : Type _} (K : ℕ) (res : ℕ → β) (sched : List (ℕ × ℕ)) :
    (ℕ → Finset ℕ) × Finset ℕ × ℕ × List β :=
  sched.foldl (filtStep K res) ((fun _ => ∅), ∅, 0, [])

/-- The tasks all of whose `K` branch results have been delivered, given
the set `Q` of delivered (task, branch) pairs. -/
def completedTasks (K : ℕ) (Q : Finset (ℕ × ℕ)) : Finset ℕ :=
  (Q.image Prod.fst).filter (fun i => ∀ k ∈ Finset.range K, (i, k) ∈ Q)

theorem mem_completedTasks {K : ℕ} (hK : 0 < K) (Q : Finset (ℕ × ℕ)) (i : ℕ) :
    i ∈ completedTasks K Q ↔ ∀ k < K, (i, k) ∈ Q := by
  unfold completedTasks
  simp only [Finset.mem_filter, Finset.mem_image, Finset.mem_range]
  constructor
  · rintro ⟨-, h⟩ k hk
    exact h k hk
  · intro h
    exact ⟨⟨(i, 0), h 0 hK, rfl⟩, h⟩

theorem completedTasks_insert_ne {K : ℕ} (hK : 0 < K) (Q : Finset (ℕ × ℕ))
    (i k j : ℕ) (hj : j ≠ i) :
    (j ∈ completedTasks K (insert (i, k) Q) ↔ j ∈ completedTasks K Q) := by
  rw [mem_completedTasks hK, mem_completedTasks hK]
  constructor
  · intro h k' hk'
    rcases Finset.mem_insert.mp (h k' hk') with h1 | h1
    · exact absurd (congrArg Prod.fst h1) hj
    · exact h1
  · intro h k' hk'
    exact Finset.mem_insert_of_mem (h k' hk')

/-- Invariant of the FilterStage state relative to the set `Q` of
delivered (task, branch) pairs: the per-task delivered-branch sets match
`Q`, every delivered branch index is `< K`, and the ordered-release state
is a settled §4.2 state for the set of completed tasks. -/
def FiltInv {β : Type _} (K : ℕ) (res : ℕ → β) (Q : Finset (ℕ × ℕ))
    (st : (ℕ → Finset ℕ) × Finset ℕ × ℕ × List β) : Prop :=
  (∀ i k, k ∈ st.1 i ↔ (i, k) ∈ Q) ∧
  (∀ p ∈ Q, p.2 < K) ∧
  OrdInv res (completedTasks K Q) st.2.1 st.2.2.1 st.2.2.2 ∧
  st.2.2.1 ∉ st.2.1

theorem filtStep_inv {β : Type _} {K : ℕ} (hK : 0 < K) (res : ℕ → β)
    (Q : Finset (ℕ × ℕ)) (st : (ℕ → Finset ℕ) × Finset ℕ × ℕ × List β)
    (i k : ℕ) (hfresh : (i, k) ∉ Q) (hval : k < K)
    (hinv : FiltInv K res Q st) :
    FiltInv K res (insert (i, k) Q) (filtStep K res st (i, k)) := by
  have hknotin : k ∉ st.1 i := fun h => hfresh ((hinv.1 i k).mp h)
  have hsub : ∀ i', st.1 i' ⊆ Finset.range K := by
    intro i' k' hk'
    exact Finset.mem_range.mpr (hinv.2.1 (i', k') ((hinv.1 i' k').mp hk'))
  have hiT : i ∉ completedTasks K Q := by
    rw [mem_completedTasks hK]
    intro h
    exact hfresh (h k hval)
  have hpartsInv : ∀ i' k',
      k' ∈ Function.update st.1 i (insert k (st.1 i)) i' ↔
        (i', k') ∈ insert (i, k) Q := by
    intro i' k'
    by_cases hi' : i' = i
    · subst hi'
      rw [Function.update_same, Finset.mem_insert, Finset.mem_insert,
        hinv.1 i' k', Prod.mk.injEq]
      tauto
    · rw [Function.update_noteq hi', Finset.mem_insert, hinv.1 i' k',
        Prod.mk.injEq]
      constructor
      · exact Or.inr
      · rintro (⟨h1, -⟩ | h1)
        · exact absurd h1 hi'
        · exact h1
  have hval' : ∀ p ∈ insert (i, k) Q, p.2 < K := by
    intro p hp
    rcases Finset.mem_insert.mp hp with h | h
    · subst h; exact hval
    · exact hinv.2.1 p h
  have hsubi : insert k (st.1 i) ⊆ Finset.range K := by
    intro k' hk'
    rcases Finset.mem_insert.mp hk' with h | h
    · subst h; exact Finset.mem_range.mpr hval
    · exact hsub i h
  by_cases hcard : (insert k (st.1 i)).card = K
  · have hstep : filtStep K res st (i, k) =
        (Function.update st.1 i (insert k (st.1 i)), ordStep res st.2 i) :=
      if_pos hcard
    have hfull : insert k (st.1 i) = Finset.range K := by
      apply Finset.eq_of_subset_of_card_le hsubi
      rw [hcard, Finset.card_range]
    have hTins : completedTasks K (insert (i, k) Q) =
        insert i (completedTasks K Q) := by
      ext j
      by_cases hj : j = i
      · subst hj
        simp only [Finset.mem_insert, true_or, iff_true]
        rw [mem_completedTasks hK]
        intro k' hk'
        rw [← hpartsInv j k', Function.update_same, hfull]
        exact Finset.mem_range.mpr hk'
      · rw [completedTasks_insert_ne hK Q i k j hj]
        simp only [Finset.mem_insert, hj, false_or]
    have hord := ordStep_inv res (completedTasks K Q) st.2.1 st.2.2.1 st.2.2.2
      i hinv.2.2.1 hinv.2.2.2 hiT
    rw [hstep]
    refine ⟨hpartsInv, hval', ?_, ?_⟩
    · rw [hTins]
      exact hord.1
    · exact hord.2
  · have hstep : filtStep K res st (i, k) =
        (Function.update st.1 i (insert k (st.1 i)), st.2) :=
      if_neg hcard
    have hiT' : i ∉ completedTasks K (insert (i, k) Q) := by
      rw [mem_completedTasks hK]
      intro h
      apply hcard
      have hfull : Finset.range K ⊆ insert k (st.1 i) := by
        intro k' hk'
        have := h k' (Finset.mem_range.mp hk')
        rw [← hpartsInv i k', Function.update_same] at this
        exact this
      rw [Finset.Subset.antisymm hsubi hfull, Finset.card_range]
    have hTsame : completedTasks K (insert (i, k) Q) = completedTasks K Q := by
      ext j
      by_cases hj : j = i
      · subst hj
        exact iff_of_false hiT' hiT
      · exact completedTasks_insert_ne hK Q i k j hj
    rw [hstep]
    refine ⟨hpartsInv, hval', ?_, hinv.2.2.2⟩
    rw [hTsame]
    exact hinv.2.2.1

theorem filtRun_inv {β : Type _} {K : ℕ} (hK : 0 < K) (res : ℕ → β) :
    ∀ (sched : List (ℕ × ℕ)) (Q : Finset (ℕ × ℕ))
      (st : (ℕ → Finset ℕ) × Finset ℕ × ℕ × List β),
      sched.Nodup → (∀ p ∈ sched, p ∉ Q) → (∀ p ∈ sched, p.2 < K) →
      FiltInv K res Q st →
      FiltInv K res (Q ∪ sched.toFinset) (sched.foldl (filtStep K res) st) := by
  intro sched
  induction sched with
  | nil =>
    intro Q st _ _ _ hinv
    simpa using hinv
  | cons p sched ih =>
    intro Q st hnd hfresh hval hinv
    obtain ⟨i, k⟩ := p
    have hstep := filtStep_inv hK res Q st i k
      (hfresh (i, k) (List.mem_cons_self _ _))
      (hval (i, k) (List.mem_cons_self _ _)) hinv
    have hfresh' : ∀ q ∈ sched, q ∉ insert (i, k) Q := by
      intro q hq
      rw [Finset.mem_insert]
      rintro (h | h)
      · exact (List.nodup_cons.mp hnd).1 (h ▸ hq)
      · exact hfresh q (List.mem_cons_of_mem _ hq) h
    have hres := ih (insert (i, k) Q) (filtStep K res st (i, k))
      (List.nodup_cons.mp hnd).2 hfresh'
      (fun q hq => hval q (List.mem_cons_of_mem _ hq)) hstep
    have hset : insert (i, k) Q ∪ sched.toFinset =
        Q ∪ ((i, k) :: sched).toFinset := by
      ext q
      simp only [Finset.mem_union, Finset.mem_insert, List.mem_toFinset,
        List.mem_cons]
      tauto
    rw [hset] at hres
    simpa using hres

/-- The full delivery schedule: every (task, branch) pair, task-major. -/
def schedPairs (N K : ℕ) : List (ℕ × ℕ) :=
  (List.range N) ×ˢ (List.range K)

theorem mem_schedPairs (N K : ℕ) (p : ℕ × ℕ) :
    p ∈ schedPairs N K ↔ p.1 < N ∧ p.2 < K := by
  obtain ⟨i, k⟩ := p
  unfold schedPairs
  rw [List.mem_product, List.mem_range, List.mem_range]

/-- The output of a full FilterStage run over any delivery schedule that
delivers each of the `K` branch results of each of the `N` tasks exactly
once is the merged results of `0, …, N-1`, in task order. -/
theorem filtRun_out {β : Type _} {K : ℕ} (hK : 0 < K) (res : ℕ → β) (N : ℕ)
    (sched : List (ℕ × ℕ)) (hperm : sched.Perm (schedPairs N K)) :
    (filtRun K res sched).2.2.1 = N ∧
      (filtRun K res sched).2.2.2 = (List.range N).map res := by
  have hnd : sched.Nodup := hperm.nodup_iff.mpr
    ((List.nodup_range N).product (List.nodup_range K))
  have hinv0 : FiltInv K res ∅
      ((fun _ => (∅ : Finset ℕ)), (∅ : Finset ℕ), 0, ([] : List β)) := by
    refine ⟨by simp, by simp, ⟨by simp [completedTasks], ?_, by simp⟩, ?_⟩
    · intro j hj
      exact absurd hj (Nat.not_lt_zero j)
    · exact Finset.not_mem_empty 0
  have h := filtRun_inv hK res sched ∅ ((fun _ => ∅), ∅, 0, []) hnd (by simp)
    (fun p hp => ((mem_schedPairs N K p).mp (hperm.mem_iff.mp hp)).2) hinv0
  have hT : ∀ j, j ∈ completedTasks K (∅ ∪ sched.toFinset) ↔ j < N := by
    intro j
    rw [mem_completedTasks hK]
    constructor
    · intro hall
      have := hall 0 hK
      rw [Finset.mem_union, List.mem_toFinset, hperm.mem_iff,
        mem_schedPairs] at this
      rcases this with h1 | h1
      · exact absurd h1 (Finset.not_mem_empty _)
      · exact h1.1
    · intro hj k hk
      rw [Finset.mem_union, List.mem_toFinset, hperm.mem_iff, mem_schedPairs]
      exact Or.inr ⟨hj, hk⟩
  exact ordInv_final res N _ _ _ _ hT h.2.2.1 h.2.2.2

/-! ### The capture loop and the Deallocator -/

/-- One iteration's effect of the capture loop body: take the next
wall-clock reading `ts (j + 1)`, capture frame `frame (j + 1)`, store it
(`images[now] = image_in`) and feed the timestamp to the main pipeline
(`pipe_iproc.put(now)`). -/
def capturePush (ts : ℕ → ℚ) (frame : ℕ → Frame) (st : Store × List Token)
    (j : ℕ) : Store × List Token :=
  (dictAssign st.1 (ts (j + 1)) (frame (j + 1)), st.2 ++ [ts (j + 1)])

/-- The capture loop of `object2.py` (`while end > now: …`), entered with
`now = ts i`; each iteration takes a new reading and runs the body.  The
fuel argument only bounds the number of iterations; `captureLoop_eq`
shows the loop stops and is fuel-independent once the readings pass
`endT`. -/
def captureLoop (ts : ℕ → ℚ) (frame : ℕ → Frame) (endT : ℚ) :
    ℕ → ℕ → Store × List Token → Store × List Token
  | 0, _, st => st
  | fuel + 1, i, st =>
    if endT > ts i then
      captureLoop ts frame endT fuel (i + 1) (capturePush ts frame st i)
    else st

/-- With strictly increasing, eventually-large readings, the capture loop
runs exactly `R - i` more iterations from index `i`, where `R` is the
first reading past `endT`: any fuel covering them gives the foldl of the
loop body over `i, …, R-1`. -/
theorem captureLoop_eq (ts : ℕ → ℚ) (frame : ℕ → Frame) (endT : ℚ)
    (hmono : StrictMono ts) (hterm : ∃ n, endT ≤ ts n) :
    ∀ fuel i st, Nat.find hterm ≤ i + fuel →
      captureLoop ts frame endT fuel i st =
        (List.range' i (Nat.find hterm - i)).foldl (capturePush ts frame) st := by
  intro fuel
  induction fuel with
  | zero =>
    intro i st hle
    have : Nat.find hterm - i = 0 := by omega
    rw [this]
    rfl
  | succ fuel ih =>
    intro i st hle
    by_cases hlt : ts i < endT
    · have hiR : i < Nat.find hterm := by
        by_contra hge
        have : endT ≤ ts i := by
          rcases Nat.lt_or_ge i (Nat.find hterm) with h | h
          · omega
          · rcases Nat.eq_or_lt_of_le h with h1 | h1
            · rw [← h1]; exact Nat.find_spec hterm
            · exact le_of_lt (lt_of_le_of_lt (Nat.find_spec hterm) (hmono h1))
        exact absurd this (not_le.mpr hlt)
      have hstep : captureLoop ts frame endT (fuel + 1) i st =
          captureLoop ts frame endT fuel (i + 1) (capturePush ts frame st i) := by
        simp [captureLoop, hlt]
      rw [hstep, ih (i + 1) (capturePush ts frame st i) (by omega)]
      have hrange : List.range' i (Nat.find hterm - i) =
          i :: List.range' (i + 1) (Nat.find hterm - (i + 1)) := by
        have h1 : Nat.find hterm - i = (Nat.find hterm - (i + 1)) + 1 := by omega
        rw [h1, List.range'_succ]
      rw [hrange]
      rfl
    · have hRi : Nat.find hterm ≤ i := Nat.find_le (not_lt.mp hlt)
      have hz : Nat.find hterm - i = 0 := by omega
      have hstep : captureLoop ts frame endT (fuel + 1) i st = st := by
        simp [captureLoop, hlt]
      rw [hstep, hz]
      rfl

/-- The token list accumulated by a foldl of capture-loop bodies. -/
theorem capturePush_foldl_tokens (ts : ℕ → ℚ) (frame : ℕ → Frame) :
    ∀ (js : List ℕ) (st : Store × List Token),
      (js.foldl (capturePush ts frame) st).2 =
        st.2 ++ js.map (fun j => ts (j + 1)) := by
  intro js
  induction js with
  | nil => intro st; simp
  | cons j js ih =>
    intro st
    rw [List.foldl_cons, List.map_cons, ih]
    simp [capturePush]

/-- The store accumulated by a foldl of capture-loop bodies. -/
theorem capturePush_foldl_store (ts : ℕ → ℚ) (frame : ℕ → Frame) :
    ∀ (js : List ℕ) (st : Store × List Token),
      (js.foldl (capturePush ts frame) st).1 =
        js.foldl (fun s j => dictAssign s (ts (j + 1)) (frame (j + 1))) st.1 := by
  intro js
  induction js with
  | nil => intro st; simp
  | cons j js ih =>
    intro js'
    rw [List.foldl_cons, List.foldl_cons, ih]
    rfl

/-- `deallocate` of `object2.py`: `for tstamp in pipe_iproc.results():
del images[tstamp]` — delete every result token from the table, a
`KeyError` (`Except.error`) aborting the task. -/
def deallocateRun (s : Store) (results : List Token) : Except Unit Store :=
  results.foldlM dictDelete s

/-! Store lemmas. -/

theorem dictGet_assign_self (s : Store) (t : Token) (v : Frame) :
    dictGet (dictAssign s t v) t = some v := by
  induction s with
  | nil => simp [dictAssign, dictGet]
  | cons p rest ih =>
    by_cases h : p.1 = t
    · simp [dictAssign, dictGet, h]
    · simp only [dictAssign, dictGet, h, if_false]
      exact ih

theorem dictGet_assign_ne (s : Store) (t t' : Token) (v : Frame)
    (h : t ≠ t') : dictGet (dictAssign s t v) t' = dictGet s t' := by
  induction s with
  | nil => simp [dictAssign, dictGet, h]
  | cons p rest ih =>
    by_cases hp : p.1 = t
    · simp only [dictAssign, hp, if_true, dictGet, h, if_false]
    · simp only [dictAssign, hp, if_false, dictGet]
      by_cases hp' : p.1 = t'
      · rw [if_pos hp', if_pos hp']
      · rw [if_neg hp', if_neg hp']
        exact ih

theorem dictKeys_assign_fresh (s : Store) (t : Token) (v : Frame)
    (h : dictGet s t = none) :
    dictKeys (dictAssign s t v) = dictKeys s ++ [t] := by
  induction s with
  | nil => simp [dictAssign, dictKeys]
  | cons p rest ih =>
    by_cases hp : p.1 = t
    · rw [dictGet, if_pos hp] at h
      exact absurd h (by simp)
    · rw [dictGet, if_neg hp] at h
      simp only [dictAssign, hp, if_false, dictKeys, List.map_cons]
      rw [← dictKeys, ← dictKeys, ih h]
      simp

theorem dictKeys_assign_mem (s : Store) (t : Token) (v : Frame)
    (h : (dictGet s t).isSome) :
    dictKeys (dictAssign s t v) = dictKeys s := by
  induction s with
  | nil => rw [dictGet] at h; exact absurd h (by simp)
  | cons p rest ih =>
    by_cases hp : p.1 = t
    · simp only [dictAssign, hp, if_true, dictKeys, List.map_cons]
    · rw [dictGet, if_neg hp] at h
      simp only [dictAssign, hp, if_false, dictKeys, List.map_cons]
      rw [← dictKeys, ← dictKeys, ih h]

theorem dictGet_none_of_not_mem_keys (s : Store) (t : Token)
    (h : t ∉ dictKeys s) : dictGet s t = none := by
  induction s with
  | nil => rfl
  | cons p rest ih =>
    simp only [dictKeys, List.map_cons, List.mem_cons] at h
    push_neg at h
    rw [dictGet, if_neg (Ne.symm h.1)]
    exact ih h.2

/-- Deleting the keys of a store, in key order, succeeds and empties it. -/
theorem deallocateRun_keys : ∀ s : Store, deallocateRun s (dictKeys s) = .ok [] := by
  intro s
  induction s with
  | nil => rfl
  | cons p rest ih =>
    obtain ⟨t, v⟩ := p
    have hdel : dictDelete ((t, v) :: rest) t = .ok rest := by
      rw [dictDelete, if_pos rfl]
    have hkeys : dictKeys ((t, v) :: rest) = t :: dictKeys rest := rfl
    rw [deallocateRun, hkeys, List.foldlM_cons, hdel]
    exact ih

theorem dictGet_isSome_of_mem_keys (s : Store) (t : Token)
    (h : t ∈ dictKeys s) : (dictGet s t).isSome := by
  induction s with
  | nil => exact absurd h (by simp [dictKeys])
  | cons p rest ih =>
    by_cases hp : p.1 = t
    · rw [dictGet, if_pos hp]
      rfl
    · rw [dictGet, if_neg hp]
      apply ih
      simp only [dictKeys, List.map_cons, List.mem_cons] at h
      rcases h with h | h
      · exact absurd h.symm hp
      · exact h

/-- A sequence of assignments with pairwise distinct keys, all fresh for
the store, appends exactly those keys. -/
theorem dictKeys_assign_foldl :
    ∀ (ps : List (Token × Frame)) (s : Store),
      (∀ p ∈ ps, p.1 ∉ dictKeys s) → (ps.map Prod.fst).Nodup →
      dictKeys (ps.foldl (fun acc p => dictAssign acc p.1 p.2) s) =
        dictKeys s ++ ps.map Prod.fst := by
  intro ps
  induction ps with
  | nil => intro s _ _; simp
  | cons p ps ih =>
    intro s hfresh hnd
    rw [List.foldl_cons]
    have h1 : dictGet s p.1 = none :=
      dictGet_none_of_not_mem_keys s p.1 (hfresh p (List.mem_cons_self _ _))
    have hkeys := dictKeys_assign_fresh s p.1 p.2 h1
    rw [List.map_cons, List.nodup_cons] at hnd
    have hfresh' : ∀ q ∈ ps, q.1 ∉ dictKeys (dictAssign s p.1 p.2) := by
      intro q hq
      rw [hkeys, List.mem_append, List.mem_singleton]
      rintro (h | h)
      · exact hfresh q (List.mem_cons_of_mem _ hq) h
      · exact hnd.1 (h ▸ List.mem_map_of_mem Prod.fst hq)
    rw [ih (dictAssign s p.1 p.2) hfresh' hnd.2, hkeys, List.map_cons]
    simp

/-- The in-place frame annotations performed by `Postprocessor.doTask`
(`cv2.rectangle` / `writeOSD` on `images[tstamp]`), as a sequence of
assignments to already-present keys. -/
def annotateAll (s : Store) (anns : List (Token × Frame)) : Store :=
  anns.foldl (fun acc p => dictAssign acc p.1 p.2) s

theorem dictKeys_annotateAll :
    ∀ (anns : List (Token × Frame)) (s : Store),
      (∀ p ∈ anns, p.1 ∈ dictKeys s) →
      dictKeys (annotateAll s anns) = dictKeys s := by
  intro anns
  induction anns with
  | nil => intro s _; rfl
  | cons p anns ih =>
    intro s hmem
    have h1 : dictKeys (dictAssign s p.1 p.2) = dictKeys s :=
      dictKeys_assign_mem s p.1 p.2
        (dictGet_isSome_of_mem_keys s p.1 (hmem p (List.mem_cons_self _ _)))
    have h2 : ∀ q ∈ anns, q.1 ∈ dictKeys (dictAssign s p.1 p.2) := by
      intro q hq
      rw [h1]
      exact hmem q (List.mem_cons_of_mem _ hq)
    show dictKeys (annotateAll (dictAssign s p.1 p.2) anns) = dictKeys s
    rw [ih (dictAssign s p.1 p.2) h2, h1]

/-- The timestamps admitted by a full capture run: `ts 1, …, ts R`. -/
def capturedTokens (ts : ℕ → ℚ) (R : ℕ) : List Token :=
  (List.range' 0 R).map (fun j => ts (j + 1))

/-- The FrameStore contents after a full capture run. -/
def capturedStore (ts : ℕ → ℚ) (frame : ℕ → Frame) (R : ℕ) : Store :=
  (List.range' 0 R).foldl (fun s j => dictAssign s (ts (j + 1)) (frame (j + 1))) []

/-- A full capture run from program start: empty table, `now = ts 0`. -/
def captureRun (ts : ℕ → ℚ) (frame : ℕ → Frame) (endT : ℚ) (fuel : ℕ) :
    Store × List Token :=
  captureLoop ts frame endT fuel 0 ([], [])

theorem captureRun_eq (ts : ℕ → ℚ) (frame : ℕ → Frame) (endT : ℚ)
    (hmono : StrictMono ts) (hterm : ∃ n, endT ≤ ts n) (fuel : ℕ)
    (hfuel : Nat.find hterm ≤ fuel) :
    captureRun ts frame endT fuel =
      (capturedStore ts frame (Nat.find hterm),
        capturedTokens ts (Nat.find hterm)) := by
  unfold captureRun
  rw [captureLoop_eq ts frame endT hmono hterm fuel 0 ([], []) (by omega)]
  have h2 := capturePush_foldl_tokens ts frame
    (List.range' 0 (Nat.find hterm - 0)) (([] : Store), ([] : List Token))
  have h1 := capturePush_foldl_store ts frame
    (List.range' 0 (Nat.find hterm - 0)) (([] : Store), ([] : List Token))
  apply Prod.ext
  · rw [h1]
    rfl
  · rw [h2]
    rfl

theorem capturedTokens_nodup (ts : ℕ → ℚ) (hmono : StrictMono ts) (R : ℕ) :
    (capturedTokens ts R).Nodup := by
  apply List.Nodup.map
  · intro a b hab
    exact Nat.succ_injective (hmono.injective hab)
  · exact List.nodup_range' 0 R

theorem capturedStore_keys (ts : ℕ → ℚ) (frame : ℕ → Frame)
    (hmono : StrictMono ts) (R : ℕ) :
    dictKeys (capturedStore ts frame R) = capturedTokens ts R := by
  unfold capturedStore
  have hfold : (List.range' 0 R).foldl
      (fun s j => dictAssign s (ts (j + 1)) (frame (j + 1))) [] =
    ((List.range' 0 R).map (fun j => (ts (j + 1), frame (j + 1)))).foldl
      (fun acc p => dictAssign acc p.1 p.2) [] := by
    rw [List.foldl_map]
  rw [hfold, dictKeys_assign_foldl _ [] (by simp [dictKeys])]
  · rw [List.map_map]
    rfl
  · rw [List.map_map]
    exact capturedTokens_nodup ts hmono R

/-! ### The main Pipeline, composed

`pipe_iproc` links `filter_detector --> postproc --> filter_viewer -->
staller`.  The stage plumbing (queues, ordered release, fan-in) is the
spec-modelled machinery above; the per-task values are the `doTask`
functions embedded from the source. -/

/-- The detector branch task functions: one `Detector` per cascade
classifier, with its colour (`detector_stages` in `object2.py`). -/
def detBranches (store : Store)
    (cascades : List ((Frame → Except Unit (List Rect4)) × ℕ)) :
    List (Token → List CRect) :=
  cascades.map (fun c => detectorDoTask store c.1 c.2)

/-- Modelled from the spec: a FilterStage run at the value level — branch
task functions `branches`, submitted task list `inputs`, branch-delivery
schedule `sched`; the emitted sequence of merged results, each an input
paired with its list of per-branch partial results. -/
def filterStageRun {α β : Type _} [Inhabited α] (branches : List (α → β))
    (inputs : List α) (sched : List (ℕ × ℕ)) : List (α × List β) :=
  (filtRun branches.length
    (fun i => (inputs.getD i default,
      branches.map (fun b => b (inputs.getD i default)))) sched).2.2.2

theorem map_eq_map_range_getD {α γ : Type _} [Inhabited α] (g : α → γ)
    (l : List α) :
    l.map g = (List.range l.length).map (fun i => g (l.getD i default)) := by
  conv_lhs => rw [← map_range_getD l]
  rw [List.map_map]
  rfl

theorem filterStageRun_out {α β : Type _} [Inhabited α]
    (branches : List (α → β)) (hK : 0 < branches.length) (inputs : List α)
    (sched : List (ℕ × ℕ))
    (hperm : sched.Perm (schedPairs inputs.length branches.length)) :
    filterStageRun branches inputs sched =
      inputs.map (fun t => (t, branches.map (fun b => b t))) := by
  unfold filterStageRun
  rw [(filtRun_out hK _ inputs.length sched hperm).2,
    map_eq_map_range_getD (fun t => (t, branches.map (fun b => b t))) inputs]

/-- The emitted sequence of an Ordered stage equals its input sequence
mapped through the task function, for every completion order. -/
theorem orderedStageRun_out {α β : Type _} [Inhabited α] (f : α → β)
    (inputs : List α) (cs : List ℕ)
    (hperm : cs.Perm (List.range inputs.length)) :
    orderedStageRun f inputs cs = inputs.map f := by
  unfold orderedStageRun
  rw [ordRun_out _ inputs.length cs hperm, map_eq_map_range_getD f inputs]

/-- `Viewer.doTask` returns its token on every path. -/
theorem viewerDoTask_eq (display : Frame → Except Unit Unit) (store : Store)
    (t : Token) : viewerDoTask display store t = t := by
  unfold viewerDoTask
  split
  · rfl
  · split <;> rfl

/-- `Postprocessor.doTask` succeeds and returns its token whenever the
token is present in the table. -/
theorem postprocDoTask_ok (annotate : Frame → List CRect → Frame)
    (store : Store) (task : Token × List (List CRect))
    (h : (dictGet store task.1).isSome) :
    (postprocDoTask annotate store task).map (fun r => r.2) = .ok task.1 := by
  unfold postprocDoTask
  obtain ⟨image, himage⟩ := Option.isSome_iff_exists.mp h
  rw [himage]
  rfl

theorem mapM_id_ok {α : Type _} :
    ∀ l : List α, (l.map Except.ok).mapM (fun e => e) = (.ok l : Except Unit (List α)) := by
  intro l
  induction l with
  | nil => rfl
  | cons a l ih =>
    rw [List.map_cons, List.mapM_cons, ih]
    rfl

/-- Modelled from the spec: a full run of the main Pipeline on the
admitted token list, at the value level, with FrameStore lookups served
from `store` (the in-place frame annotations change no keys and no
tokens).  `sched1` and `sched3` are the branch-delivery schedules of
`filter_detector` and `filter_viewer`; `cs2` and `cs4` the completion
orders of `postproc` and `staller`.  A `KeyError` escaping
`Postprocessor.doTask` aborts the pipeline (`Except.error`). -/
def mainResults (annotate : Frame → List CRect → Frame)
    (display : Frame → Except Unit Unit) (store : Store)
    (cascades : List ((Frame → Except Unit (List Rect4)) × ℕ))
    (tokens : List Token) (sched1 : List (ℕ × ℕ)) (cs2 : List ℕ)
    (sched3 : List (ℕ × ℕ)) (cs4 : List ℕ) : Except Unit (List Token) :=
  ((orderedStageRun
      (fun task => (postprocDoTask annotate store task).map (fun r => r.2))
      (filterStageRun (detBranches store cascades) tokens sched1) cs2).mapM
    (fun e => e)).map (fun out2 =>
      orderedStageRun stallerDoTask
        (filterStageRun [viewerDoTask display store] out2 sched3) cs4)

/-- Under valid schedules, with every admitted token present in the
table, the main Pipeline emits exactly the admitted tokens, in admission
order. -/
theorem mainResults_ok (annotate : Frame → List CRect → Frame)
    (display : Frame → Except Unit Unit) (store : Store)
    (cascades : List ((Frame → Except Unit (List Rect4)) × ℕ))
    (tokens : List Token) (sched1 : List (ℕ × ℕ)) (cs2 : List ℕ)
    (sched3 : List (ℕ × ℕ)) (cs4 : List ℕ)
    (hK : 0 < cascades.length)
    (hmem : ∀ t ∈ tokens, (dictGet store t).isSome)
    (h1 : sched1.Perm (schedPairs tokens.length cascades.length))
    (h2 : cs2.Perm (List.range tokens.length))
    (h3 : sched3.Perm (schedPairs tokens.length 1))
    (h4 : cs4.Perm (List.range tokens.length)) :
    mainResults annotate display store cascades tokens sched1 cs2 sched3 cs4 =
      .ok tokens := by
  have hKd : 0 < (detBranches store cascades).length := by
    rw [detBranches, List.length_map]
    exact hK
  have hout1 : filterStageRun (detBranches store cascades) tokens sched1 =
      tokens.map (fun t => (t, (detBranches store cascades).map (fun b => b t))) := by
    apply filterStageRun_out _ hKd tokens sched1
    rw [detBranches, List.length_map]
    exact h1
  have hlen1 : (filterStageRun (detBranches store cascades) tokens sched1).length =
      tokens.length := by
    rw [hout1, List.length_map]
  have hout2 : orderedStageRun
      (fun task => (postprocDoTask annotate store task).map (fun r => r.2))
      (filterStageRun (detBranches store cascades) tokens sched1) cs2 =
      tokens.map Except.ok := by
    rw [orderedStageRun_out _ _ cs2 (hlen1 ▸ h2), hout1, List.map_map]
    apply List.map_congr_left
    intro t ht
    exact postprocDoTask_ok annotate store _ (hmem t ht)
  unfold mainResults
  rw [hout2, mapM_id_ok tokens]
  have hout3 : filterStageRun [viewerDoTask display store] tokens sched3 =
      tokens.map (fun t => (t, [t])) := by
    rw [filterStageRun_out _ (by simp) tokens sched3 (by simpa using h3)]
    apply List.map_congr_left
    intro t _
    rw [List.map_cons, List.map_nil, viewerDoTask_eq]
  have hlen3 : (filterStageRun [viewerDoTask display store] tokens sched3).length =
      tokens.length := by
    rw [hout3, List.length_map]
  show Except.ok (orderedStageRun stallerDoTask
    (filterStageRun [viewerDoTask display store] tokens sched3) cs4) = _
  rw [orderedStageRun_out _ _ cs4 (hlen3 ▸ h4), hout3, List.map_map]
  simp [stallerDoTask, Function.comp_def]

/-- `Detector.doTask` catches a classifier failure and returns the
rectangles accumulated so far — none, the failure precedes any append. -/
theorem detectorDoTask_classify_error (store : Store)
    (classify : Frame → Except Unit (List Rect4)) (color : ℕ) (t : Token)
    (image : Frame) (e : Unit) (hget : dictGet store t = some image)
    (hfail : classify image = .error e) :
    detectorDoTask store classify color t = [] := by
  unfold detectorDoTask
  rw [hget]
  show (match classify image with
    | Except.error _ => ([] : List CRect)
    | Except.ok rects => rects.map (fun r => (r, color))) = []
  rw [hfail]

/-- The Staller never returns before `tstamp + 2` on the wall clock. -/
theorem stallerRelease_ge (now tstamp : ℚ) :
    tstamp + 2 ≤ stallerRelease now tstamp := by
  simp only [stallerRelease, stallerWait]
  split_ifs with h
  · linarith
  · linarith

/-! ### Claims -/

/-- C2: for any sequence of N Tasks submitted to an Ordered stage (every
worker in this program — Detector, Postprocessor, Viewer, Staller — is an
`mpipe.OrderedWorker`), the sequence of results emitted downstream equals
the submitted sequence mapped through the task function, in submission
order, independent of the per-task completion order `cs`. -/
theorem c2_ordered_stage_preserves_order {α β : Type _} [Inhabited α]
    (f : α → β) (inputs : List α) (cs : List ℕ)
    (hperm : cs.Perm (List.range inputs.length)) :
    orderedStageRun f inputs cs = inputs.map f :=
  orderedStageRun_out f inputs cs hperm

/-- Witness for C2: three tasks completing in the order 2, 0, 1 are still
emitted in submission order. -/
theorem c2_ordered_stage_preserves_order_witness :
    ([2, 0, 1] : List ℕ).Perm (List.range 3) ∧
      orderedStageRun (fun n : ℕ => n * n) [3, 5, 7] [2, 0, 1] = [9, 25, 49] :=
  ⟨by decide, by
    have h := c2_ordered_stage_preserves_order (fun n : ℕ => n * n) [3, 5, 7]
      [2, 0, 1] (by decide)
    simpa using h⟩

/-- C3: each Token fed into the detector FilterStage with its K configured
branch Stages yields exactly one merged result downstream — the Token
paired with the list of exactly one rectangle-list contribution per
classifier branch — and the merged results appear in the original Token
order for every branch-delivery order `sched`. -/
theorem c3_filter_detector_fan_in (store : Store)
    (cascades : List ((Frame → Except Unit (List Rect4)) × ℕ))
    (tokens : List Token) (sched : List (ℕ × ℕ)) (hK : 0 < cascades.length)
    (hperm : sched.Perm (schedPairs tokens.length cascades.length)) :
    filterStageRun (detBranches store cascades) tokens sched =
      tokens.map (fun t =>
        (t, cascades.map (fun c => detectorDoTask store c.1 c.2 t))) := by
  rw [filterStageRun_out (detBranches store cascades)
    (by rw [detBranches, List.length_map]; exact hK) tokens sched
    (by rw [detBranches, List.length_map]; exact hperm)]
  apply List.map_congr_left
  intro t _
  rw [detBranches, List.map_map]
  rfl

/-- Witness for C3: two tokens, two branches, branches delivered out of
order; each merged result has one contribution per branch, in token
order. -/
theorem c3_filter_detector_fan_in_witness :
    (0 : ℕ) < 2 ∧
      ([(1, 0), (0, 1), (0, 0), (1, 1)] : List (ℕ × ℕ)).Perm (schedPairs 2 2) ∧
      filterStageRun
          (detBranches []
            [(fun _ => .ok [(1, 2, 3, 4)], 10), (fun _ => .error (), 20)])
          [(5 : ℚ), 7] [(1, 0), (0, 1), (0, 0), (1, 1)] =
        [(5, [[], []]), (7, [[], []])] :=
  ⟨by decide, by decide, by
    have h := c3_filter_detector_fan_in []
      [(fun _ => .ok [(1, 2, 3, 4)], 10), (fun _ => .error (), 20)]
      [(5 : ℚ), 7] [(1, 0), (0, 1), (0, 0), (1, 1)] (by decide) (by decide)
    rw [h]
    rfl⟩

/-- C4: the Staller computes `floor − (now − anchor)` with floor = 2 s
(`datetime.timedelta(seconds=2)`); if that is positive it blocks the Task
exactly that long, releasing at `anchor + 2`, and if non-positive it
releases immediately (at `now`) — so no Task is released earlier than 2 s
after its anchor timestamp. -/
theorem c4_staller_latency_floor (now tstamp : ℚ) :
    tstamp + 2 ≤ stallerRelease now tstamp ∧
      (tstamp + 2 ≤ now → stallerRelease now tstamp = now) ∧
      (now < tstamp + 2 → stallerRelease now tstamp = tstamp + 2) := by
  refine ⟨stallerRelease_ge now tstamp, ?_, ?_⟩ <;>
    simp only [stallerRelease, stallerWait] <;> split_ifs with h <;>
      intro hc <;> linarith

/-- Witness for C4: a task already 4 s old is released immediately; a
task entering 1 s after its anchor is released exactly at anchor + 2. -/
theorem c4_staller_latency_floor_witness :
    stallerRelease 5 1 = 5 ∧ stallerRelease 3 2 = 4 :=
  ⟨(c4_staller_latency_floor 5 1).2.1 (by norm_num), by
    have h := (c4_staller_latency_floor 3 2).2.2 (by norm_num)
    norm_num at h
    exact h⟩

/-- C9 counterexample: the Staller's forwarded value is not the Task it
received — two different Tasks (same Token, different merged results) are
forwarded as the same value, so the merged results are discarded, not
released unchanged. -/
theorem c9_staller_projects_task :
    stallerDoTask ((3 : ℚ), [(7 : ℚ)]) = stallerDoTask ((3 : ℚ), [(8 : ℚ)]) ∧
      ((3 : ℚ), [(7 : ℚ)]) ≠ ((3 : ℚ), [(8 : ℚ)]) :=
  ⟨rfl, by decide⟩

/-- C9 (amended): the Staller forwards only the Token component of the
Task it received — `return tstamp` — discarding the merged viewer
results; the Token itself is unchanged and only the release time is
affected by the latency floor. -/
theorem c9_staller_forwards_token (now t : ℚ) (rs : List Token) :
    stallerDoTask (t, rs) = t ∧ t + 2 ≤ stallerRelease now t :=
  ⟨rfl, stallerRelease_ge now t⟩

/-- C6 counterexample: a FrameStore miss in `Postprocessor.doTask` is not
handled — the unguarded `images[tstamp]` raises `KeyError` (modelled
`Except.error`), crashing the stage, contrary to the claim that every
stage body reading `images[tstamp]` fails soft. -/
theorem c6_postprocessor_crashes_on_miss :
    postprocDoTask (fun f _ => f) [] ((0 : ℚ), []) = .error () := rfl

/-- C6 (amended): a FrameStore lookup miss is handled softly in
`Detector.doTask` (caught, empty rectangle list) and in `Viewer.doTask`
(caught, returns the Token) — but not in `Postprocessor.doTask`, which
has no handler and raises `KeyError` on a miss. -/
theorem c6_lookup_miss_handling (store : Store) (t : Token)
    (hmiss : dictGet store t = none) :
    (∀ classify color, detectorDoTask store classify color t = []) ∧
      (∀ display, viewerDoTask display store t = t) ∧
      (∀ annotate rects, postprocDoTask annotate store (t, rects) = .error ()) := by
  refine ⟨?_, ?_, ?_⟩
  · intro classify color
    unfold detectorDoTask
    rw [hmiss]
  · intro display
    exact viewerDoTask_eq display store t
  · intro annotate rects
    simp only [postprocDoTask, hmiss]

/-- Witness for C6 (amended), at the empty table and token 0. -/
theorem c6_lookup_miss_handling_witness :
    dictGet [] (0 : ℚ) = none ∧
      detectorDoTask [] (fun _ => .ok []) 3 (0 : ℚ) = [] ∧
      viewerDoTask (fun _ => .ok ()) [] (0 : ℚ) = 0 ∧
      postprocDoTask (fun f _ => f) [] ((0 : ℚ), [[]]) = .error () :=
  ⟨rfl, (c6_lookup_miss_handling [] 0 rfl).1 _ _,
    (c6_lookup_miss_handling [] 0 rfl).2.1 _,
    (c6_lookup_miss_handling [] 0 rfl).2.2 _ _⟩

/-- C8 counterexample: `images[t] = v` on an already-present Token does
not fail — Python dict assignment silently replaces the stored Frame. -/
theorem c8_assign_replaces_silently :
    dictAssign (dictAssign [] (0 : ℚ) 5) 0 7 = [(0, 7)] ∧
      dictGet (dictAssign (dictAssign [] (0 : ℚ) 5) 0 7) 0 = some 7 := by
  constructor <;> rfl

/-- C8 (amended): FrameStore insertion under an already-present Token
silently replaces the existing Frame (never fails); Token uniqueness is
assumed, not enforced — but when the capture clock readings are strictly
increasing, the capture loop's Tokens are pairwise distinct, every
`images[now]` assignment inserts a fresh key, and no live entry is
overwritten: the final table holds exactly one entry per admitted Token. -/
theorem c8_capture_inserts_fresh (ts : ℕ → ℚ) (frame : ℕ → Frame)
    (hmono : StrictMono ts) (R : ℕ) :
    (∀ (s : Store) (t : Token) (v : Frame),
        dictGet (dictAssign s t v) t = some v ∧
          ((dictGet s t).isSome → dictKeys (dictAssign s t v) = dictKeys s)) ∧
      (capturedTokens ts R).Nodup ∧
      dictKeys (capturedStore ts frame R) = capturedTokens ts R := by
  refine ⟨?_, capturedTokens_nodup ts hmono R, capturedStore_keys ts frame hmono R⟩
  intro s t v
  exact ⟨dictGet_assign_self s t v, dictKeys_assign_mem s t v⟩

/-- Witness for C8 (amended): clock `n ↦ n`, two admitted tokens. -/
theorem c8_capture_inserts_fresh_witness :
    ((capturedTokens (fun n : ℕ => (n : ℚ)) 2).Nodup ∧
        dictKeys (capturedStore (fun n : ℕ => (n : ℚ)) (fun _ => 0) 2) =
          capturedTokens (fun n : ℕ => (n : ℚ)) 2) ∧
      capturedTokens (fun n : ℕ => (n : ℚ)) 2 = [1, 2] := by
  have h := c8_capture_inserts_fresh (fun n : ℕ => (n : ℚ)) (fun _ => 0)
    Nat.strictMono_cast 2
  exact ⟨⟨h.2.1, h.2.2⟩, by norm_num [capturedTokens, List.range']⟩

/-- C7: a failure of the stage task function on one Task is caught at the
single-task boundary and converted into a neutral result — the classifier
raising inside `Detector.doTask` yields the empty rectangle list, a
display failure inside `Viewer.doTask` still yields the Token — the
failing Task produces a normal result rather than a propagated exception,
and the stage's ordered output sequence is unaffected. -/
theorem c7_per_task_failure_neutral (store : Store)
    (classify : Frame → Except Unit (List Rect4)) (color : ℕ) (t : Token)
    (image : Frame) (e : Unit) (hget : dictGet store t = some image)
    (hfail : classify image = .error e) :
    detectorDoTask store classify color t = [] ∧
      (∀ (display : Frame → Except Unit Unit) (u : Token),
        viewerDoTask display store u = u) ∧
      (∀ (tokens : List Token) (cs : List ℕ),
        cs.Perm (List.range tokens.length) →
        orderedStageRun (detectorDoTask store classify color) tokens cs =
          tokens.map (detectorDoTask store classify color)) := by
  refine ⟨?_, fun display u => viewerDoTask_eq display store u,
    fun tokens cs h => orderedStageRun_out _ tokens cs h⟩
  exact detectorDoTask_classify_error store classify color t image e hget hfail

/-- Witness for C7: token 0 has a frame, the classifier fails on it; the
Detector still returns `[]` and an ordered stage of Detectors still emits
one result per task in input order. -/
theorem c7_per_task_failure_neutral_witness :
    dictGet [((0 : ℚ), 5)] 0 = some 5 ∧
      (fun _ : Frame => (.error () : Except Unit (List Rect4))) 5 = .error () ∧
      detectorDoTask [((0 : ℚ), 5)] (fun _ => .error ()) 3 0 = [] ∧
      orderedStageRun (detectorDoTask [((0 : ℚ), 5)] (fun _ => .error ()) 3)
        [(0 : ℚ), 1] [1, 0] = [[], []] := by
  have h := c7_per_task_failure_neutral [((0 : ℚ), 5)] (fun _ => .error ()) 3 0 5
    () rfl rfl
  refine ⟨rfl, rfl, h.1, ?_⟩
  rw [h.2.2 [0, 1] [1, 0] (by decide)]
  rfl

/-- C10: even when `Detector.doTask`'s classifier raises or
`Viewer.doTask`'s body raises, the worker still returns a well-formed
result for the Task (the Detector the rectangles accumulated before the
failure — necessarily none — and the Viewer the Token itself), so a
per-frame error never removes a Token from the pipeline flow: with
arbitrary (failing) cascades the main Pipeline still emits every admitted
Token exactly once to the Staller's output, and the Deallocator then
deletes each, emptying the FrameStore. -/
theorem c10_failures_never_drop_tokens (annotate : Frame → List CRect → Frame)
    (display : Frame → Except Unit Unit) (store : Store)
    (cascades : List ((Frame → Except Unit (List Rect4)) × ℕ))
    (tokens : List Token) (sched1 : List (ℕ × ℕ)) (cs2 : List ℕ)
    (sched3 : List (ℕ × ℕ)) (cs4 : List ℕ)
    (hK : 0 < cascades.length) (hkeys : dictKeys store = tokens)
    (h1 : sched1.Perm (schedPairs tokens.length cascades.length))
    (h2 : cs2.Perm (List.range tokens.length))
    (h3 : sched3.Perm (schedPairs tokens.length 1))
    (h4 : cs4.Perm (List.range tokens.length)) :
    (∀ (classify : Frame → Except Unit (List Rect4)) (color : ℕ) (t : Token)
        (image : Frame) (e : Unit), dictGet store t = some image →
        classify image = .error e → detectorDoTask store classify color t = []) ∧
      (∀ u, viewerDoTask display store u = u) ∧
      mainResults annotate display store cascades tokens sched1 cs2 sched3 cs4 =
        .ok tokens ∧
      deallocateRun store tokens = .ok [] := by
  refine ⟨?_, fun u => viewerDoTask_eq display store u, ?_, ?_⟩
  · intro classify color t image e hget hfail
    exact detectorDoTask_classify_error store classify color t image e hget hfail
  · apply mainResults_ok _ _ _ _ _ _ _ _ _ hK _ h1 h2 h3 h4
    intro t ht
    exact dictGet_isSome_of_mem_keys store t (by rw [hkeys]; exact ht)
  · rw [← hkeys]
    exact deallocateRun_keys store

/-- Witness for C10: two stored frames, one always-failing classifier;
the pipeline still emits both tokens and the Deallocator empties the
table. -/
theorem c10_failures_never_drop_tokens_witness :
    detectorDoTask [((0 : ℚ), 5), (1, 6)] (fun _ => .error ()) 2 0 = [] ∧
      mainResults (fun f _ => f) (fun _ => .ok ()) [((0 : ℚ), 5), (1, 6)]
          [(fun _ => .error (), 2)] [(0 : ℚ), 1]
          [(1, 0), (0, 0)] [1, 0] [(0, 0), (1, 0)] [0, 1] =
        .ok [(0 : ℚ), 1] ∧
      deallocateRun [((0 : ℚ), 5), (1, 6)] [(0 : ℚ), 1] = .ok [] := by
  have h := c10_failures_never_drop_tokens (fun f _ => f) (fun _ => .ok ())
    [((0 : ℚ), 5), (1, 6)] [(fun _ => .error (), 2)] [(0 : ℚ), 1]
    [(1, 0), (0, 0)] [1, 0] [(0, 0), (1, 0)] [0, 1]
    (by norm_num) rfl (by decide) (by decide) (by decide) (by decide)
  exact ⟨h.1 (fun _ => .error ()) 2 0 5 () rfl rfl, h.2.2.1, h.2.2.2⟩

/-- C1: every Token the capture loop inserts into the FrameStore is
deleted exactly once by the Deallocator — which deletes precisely the
main Pipeline's emitted result sequence, in which each admitted Token
occurs exactly once after exiting the Staller at the Pipeline's tail —
and after the full run of the admitted Tokens followed by the Sentinel
the FrameStore is empty, for arbitrary in-place annotations of live
Tokens in between. -/
theorem c1_no_leak_no_double_free (ts : ℕ → ℚ) (frame : ℕ → Frame)
    (endT : ℚ) (fuel : ℕ) (annotate : Frame → List CRect → Frame)
    (display : Frame → Except Unit Unit)
    (cascades : List ((Frame → Except Unit (List Rect4)) × ℕ))
    (sched1 : List (ℕ × ℕ)) (cs2 : List ℕ) (sched3 : List (ℕ × ℕ))
    (cs4 : List ℕ) (anns : List (Token × Frame))
    (hmono : StrictMono ts) (hterm : ∃ n, endT ≤ ts n)
    (hfuel : Nat.find hterm ≤ fuel) (hK : 0 < cascades.length)
    (h1 : sched1.Perm (schedPairs (Nat.find hterm) cascades.length))
    (h2 : cs2.Perm (List.range (Nat.find hterm)))
    (h3 : sched3.Perm (schedPairs (Nat.find hterm) 1))
    (h4 : cs4.Perm (List.range (Nat.find hterm)))
    (hanns : ∀ p ∈ anns, p.1 ∈ capturedTokens ts (Nat.find hterm)) :
    mainResults annotate display (captureRun ts frame endT fuel).1 cascades
        (captureRun ts frame endT fuel).2 sched1 cs2 sched3 cs4 =
      .ok (captureRun ts frame endT fuel).2 ∧
      deallocateRun (annotateAll (captureRun ts frame endT fuel).1 anns)
          (captureRun ts frame endT fuel).2 = .ok [] ∧
      ∀ t ∈ (captureRun ts frame endT fuel).2,
        List.count t (captureRun ts frame endT fuel).2 = 1 := by
  have hrun := captureRun_eq ts frame endT hmono hterm fuel hfuel
  rw [hrun]
  have hlen : (capturedTokens ts (Nat.find hterm)).length = Nat.find hterm := by
    unfold capturedTokens
    rw [List.length_map, List.length_range']
  have hkeys := capturedStore_keys ts frame hmono (Nat.find hterm)
  refine ⟨?_, ?_, ?_⟩
  · apply mainResults_ok _ _ _ _ _ _ _ _ _ hK _ (by rw [hlen]; exact h1)
      (by rw [hlen]; exact h2) (by rw [hlen]; exact h3) (by rw [hlen]; exact h4)
    intro t ht
    exact dictGet_isSome_of_mem_keys _ t (by rw [hkeys]; exact ht)
  · have hkeys' : dictKeys (annotateAll (capturedStore ts frame (Nat.find hterm)) anns) =
        capturedTokens ts (Nat.find hterm) := by
      rw [dictKeys_annotateAll anns _ ?_, hkeys]
      intro p hp
      rw [hkeys]
      exact hanns p hp
    rw [← hkeys']
    exact deallocateRun_keys _
  · intro t ht
    exact List.count_eq_one_of_mem
      (capturedTokens_nodup ts hmono (Nat.find hterm)) ht

/-- Witness for C1: clock `n ↦ n`, duration ending at 2, two admitted
tokens; the pipeline emits them and the Deallocator empties the table. -/
theorem c1_no_leak_no_double_free_witness :
    mainResults (fun f _ => f) (fun _ => .ok ())
        (captureRun (fun n : ℕ => (n : ℚ)) (fun _ => 0) 2 2).1
        [(fun _ => .ok [], 0)]
        (captureRun (fun n : ℕ => (n : ℚ)) (fun _ => 0) 2 2).2
        [(1, 0), (0, 0)] [1, 0] [(0, 0), (1, 0)] [0, 1] =
      .ok (captureRun (fun n : ℕ => (n : ℚ)) (fun _ => 0) 2 2).2 ∧
      deallocateRun
        (annotateAll (captureRun (fun n : ℕ => (n : ℚ)) (fun _ => 0) 2 2).1 [])
        (captureRun (fun n : ℕ => (n : ℚ)) (fun _ => 0) 2 2).2 = .ok [] := by
  have hterm : ∃ n : ℕ, (2 : ℚ) ≤ ((n : ℕ) : ℚ) := ⟨2, by norm_num⟩
  have hfind : Nat.find hterm = 2 := by
    rw [Nat.find_eq_iff]
    refine ⟨by norm_num, ?_⟩
    intro n hn
    interval_cases n <;> norm_num
  have h := c1_no_leak_no_double_free (fun n : ℕ => (n : ℚ)) (fun _ => 0) 2 2
    (fun f _ => f) (fun _ => .ok ()) [(fun _ => .ok [], 0)]
    [(1, 0), (0, 0)] [1, 0] [(0, 0), (1, 0)] [0, 1] []
    Nat.strictMono_cast hterm (by rw [hfind]) (by norm_num)
    (by rw [hfind]; decide) (by rw [hfind]; decide) (by rw [hfind]; decide)
    (by rw [hfind]; decide) (by intro p hp; exact absurd hp (List.not_mem_nil p))
  exact ⟨h.1, h.2.1⟩

/-- C5: after the configured duration elapses the capture loop stops (its
outcome is the same for every sufficient iteration bound); the Sentinel
is then sent to the main Pipeline and then to the Deallocator pipeline
(the straight-line epilogue of `object2.py`), and both result sequences
are finite: the main Pipeline's results are exactly the admitted Tokens —
each previously admitted Task observed exactly once — and the
Deallocator's run over them terminates successfully, so the final
blocking drain terminates. -/
theorem c5_shutdown_termination (ts : ℕ → ℚ) (frame : ℕ → Frame)
    (endT : ℚ) (fuel : ℕ) (annotate : Frame → List CRect → Frame)
    (display : Frame → Except Unit Unit)
    (cascades : List ((Frame → Except Unit (List Rect4)) × ℕ))
    (sched1 : List (ℕ × ℕ)) (cs2 : List ℕ) (sched3 : List (ℕ × ℕ))
    (cs4 : List ℕ)
    (hmono : StrictMono ts) (hterm : ∃ n, endT ≤ ts n)
    (hfuel : Nat.find hterm ≤ fuel) (hK : 0 < cascades.length)
    (h1 : sched1.Perm (schedPairs (Nat.find hterm) cascades.length))
    (h2 : cs2.Perm (List.range (Nat.find hterm)))
    (h3 : sched3.Perm (schedPairs (Nat.find hterm) 1))
    (h4 : cs4.Perm (List.range (Nat.find hterm))) :
    (∀ fuel', Nat.find hterm ≤ fuel' →
        captureRun ts frame endT fuel' = captureRun ts frame endT fuel) ∧
      mainResults annotate display (captureRun ts frame endT fuel).1 cascades
          (captureRun ts frame endT fuel).2 sched1 cs2 sched3 cs4 =
        .ok (captureRun ts frame endT fuel).2 ∧
      (∀ t ∈ (captureRun ts frame endT fuel).2,
        List.count t (captureRun ts frame endT fuel).2 = 1) ∧
      deallocateRun (captureRun ts frame endT fuel).1
        (captureRun ts frame endT fuel).2 = .ok [] := by
  have hrun := captureRun_eq ts frame endT hmono hterm fuel hfuel
  have hstop : ∀ fuel', Nat.find hterm ≤ fuel' →
      captureRun ts frame endT fuel' = captureRun ts frame endT fuel := by
    intro fuel' hf'
    rw [hrun, captureRun_eq ts frame endT hmono hterm fuel' hf']
  rw [hrun]
  have hlen : (capturedTokens ts (Nat.find hterm)).length = Nat.find hterm := by
    unfold capturedTokens
    rw [List.length_map, List.length_range']
  have hkeys := capturedStore_keys ts frame hmono (Nat.find hterm)
  refine ⟨hrun ▸ hstop, ?_, ?_, ?_⟩
  · apply mainResults_ok _ _ _ _ _ _ _ _ _ hK _ (by rw [hlen]; exact h1)
      (by rw [hlen]; exact h2) (by rw [hlen]; exact h3) (by rw [hlen]; exact h4)
    intro t ht
    exact dictGet_isSome_of_mem_keys _ t (by rw [hkeys]; exact ht)
  · intro t ht
    exact List.count_eq_one_of_mem
      (capturedTokens_nodup ts hmono (Nat.find hterm)) ht
  · rw [← hkeys]
    exact deallocateRun_keys _

/-- Witness for C5: clock `n ↦ n`, duration ending at 2, fuel bounds 3
and 5 give the same finished run; the Deallocator terminates with an
empty table. -/
theorem c5_shutdown_termination_witness :
    captureRun (fun n : ℕ => (n : ℚ)) (fun _ => 0) 2 5 =
      captureRun (fun n : ℕ => (n : ℚ)) (fun _ => 0) 2 3 ∧
      deallocateRun (captureRun (fun n : ℕ => (n : ℚ)) (fun _ => 0) 2 3).1
        (captureRun (fun n : ℕ => (n : ℚ)) (fun _ => 0) 2 3).2 = .ok [] := by
  have hterm : ∃ n : ℕ, (2 : ℚ) ≤ ((n : ℕ) : ℚ) := ⟨2, by norm_num⟩
  have hfind : Nat.find hterm = 2 := by
    rw [Nat.find_eq_iff]
    refine ⟨by norm_num, ?_⟩
    intro n hn
    interval_cases n <;> norm_num
  have h := c5_shutdown_termination (fun n : ℕ => (n : ℚ)) (fun _ => 0) 2 3
    (fun f _ => f) (fun _ => .ok ()) [(fun _ => .ok [], 0)]
    [(1, 0), (0, 0)] [1, 0] [(0, 0), (1, 0)] [0, 1]
    Nat.strictMono_cast hterm (by rw [hfind]; norm_num) (by norm_num)
    (by rw [hfind]; decide) (by rw [hfind]; decide) (by rw [hfind]; decide)
    (by rw [hfind]; decide)
  exact ⟨h.1 5 (by rw [hfind]; norm_num), h.2.2.2⟩

end Sherlock
